import Mathlib

/-!
Verification of the splitcsv repository: a CSV splitter that cuts a large
delimited-text file into bounded parts, repeating the header in every part.

The source has two implementations:
* a configurable one (`CSVSplitter.Split` with `Config`, `isEmptyRecord`,
  `createReader`, `createNewFile`), and
* a minimal closure-based one (`splitCSV` in csvsplit.go).

Below, records are lists of field strings, and every output part is modelled
as the list of records written to its file (the header first).  The stateful
Go loop in `Split` is embedded as explicit state passing: the loop state is
`(recordCount, totalRecords, current part contents, finished parts)`.
-/

/-- One CSV row: an ordered list of field values, as produced by the reader. -/
abbrev Record := List String

/-- Configuration of the configurable splitter (struct `Config` in the source).
`maxRecords` and `bufferSize` are `int` in Go; `validateConfig` rejects
non-positive values, so they are carried as `Nat` here.  The source field
`OutputPrefix` is called `outName` here. -/
structure Config where
  inputPath : String
  outName : String
  outputDir : String
  maxRecords : Nat
  bufferSize : Nat
  skipEmpty : Bool
  delimiter : Char
  verbose : Bool
deriving DecidableEq

/-- Embeds `isEmptyRecord` (source lines 229-236): true iff every field of the
record is the empty string (also true for a record with no fields, since the
Go loop over an empty slice falls through to `return true`). -/
def isEmptyRecord (record : Record) : Bool :=
  record.all (fun field => field = "")

/-- Embeds the delimiter-parsing step of `parseFlags` (source lines 82-89):
Go checks `len(*delimiterStr) == 1`, a byte-length test, and takes the first
byte as the delimiter rune; any other value falls back to `','`. -/
def parseDelimiter (s : String) : Char :=
  if s.utf8ByteSize = 1 then s.get 0 else ','

/-- Reader settings assembled by `createReader` (source lines 203-209). -/
structure ReaderConfig where
  comma : Char
  lazyQuotes : Bool
  trimLeadingSpace : Bool
deriving DecidableEq

/-- Embeds `createReader` (source lines 203-209): the reader uses the
configured delimiter, lazy quotes, and leading-whitespace trimming. -/
def createReader (cfg : Config) : ReaderConfig :=
  { comma := cfg.delimiter, lazyQuotes := true, trimLeadingSpace := true }

/-- Embeds the writer configuration step of `createNewFile` (source line 256):
the writer's field separator is the configured delimiter. -/
def writerComma (cfg : Config) : Char :=
  cfg.delimiter

/-- Scanner state of the CSV row parser: at the start of a field, inside an
unquoted field, or inside a quoted field. -/
inductive ScanMode where
  | fieldStart
  | inBare
  | inQuoted
deriving DecidableEq

/-- Parse errors of the CSV row parser: a bare quote in an unquoted field, or
an extraneous or missing quote in a quoted field. -/
inductive CSVParseError where
  | bareQuote
  | quote
deriving DecidableEq

/-- Modelled from the spec: the repository delegates row parsing to Go's
`encoding/csv` reader, which is not part of the source tree.  The spec
describes its contract as: fields separated by the configured delimiter,
"lenient quote handling (malformed quotes do not abort parsing)" when lazy
quotes are on, and leading-whitespace trimming on fields.  `scan` parses one
row under that contract: a quoted field ends at a closing quote; `""` inside
a quoted field is a literal quote; with lazy quotes a stray or unterminated
quote is kept as a best-effort parse, while without lazy quotes it is a
parse error.  State: mode, reversed-free accumulator of the current field,
fields finished so far, remaining characters of the row. -/
def scan (comma : Char) (lazy : Bool) (trim : Bool) :
    ScanMode → List Char → List (List Char) → List Char →
    Except CSVParseError (List String)
  | .fieldStart, acc, fields, [] =>
      .ok ((fields ++ [acc]).map (fun f => String.mk f))
  | .fieldStart, acc, fields, c :: cs =>
      if trim && c.isWhitespace then
        scan comma lazy trim .fieldStart acc fields cs
      else if c = comma then
        scan comma lazy trim .fieldStart [] (fields ++ [acc]) cs
      else if c = '"' then
        scan comma lazy trim .inQuoted acc fields cs
      else
        scan comma lazy trim .inBare (acc ++ [c]) fields cs
  | .inBare, acc, fields, [] =>
      .ok ((fields ++ [acc]).map (fun f => String.mk f))
  | .inBare, acc, fields, c :: cs =>
      if c = comma then
        scan comma lazy trim .fieldStart [] (fields ++ [acc]) cs
      else if c = '"' && !lazy then
        .error .bareQuote
      else
        scan comma lazy trim .inBare (acc ++ [c]) fields cs
  | .inQuoted, acc, fields, [] =>
      if lazy then .ok ((fields ++ [acc]).map (fun f => String.mk f))
      else .error .quote
  | .inQuoted, acc, fields, c :: cs =>
      if c = '"' then
        match cs with
        | [] => .ok ((fields ++ [acc]).map (fun f => String.mk f))
        | c2 :: cs2 =>
          if c2 = '"' then
            scan comma lazy trim .inQuoted (acc ++ ['"']) fields cs2
          else if c2 = comma then
            scan comma lazy trim .fieldStart [] (fields ++ [acc]) cs2
          else if lazy then
            scan comma lazy trim .inQuoted (acc ++ ['"']) fields (c2 :: cs2)
          else
            .error .quote
      else
        scan comma lazy trim .inQuoted (acc ++ [c]) fields cs
termination_by _ _ _ rest => rest.length
decreasing_by all_goals simp only [List.length_cons]; omega

/-- Parses one input row with the given reader settings (the per-record work
of `reader.Read()` in the split loop). -/
def readLine (rc : ReaderConfig) (line : List Char) :
    Except CSVParseError (List String) :=
  scan rc.comma rc.lazyQuotes rc.trimLeadingSpace .fieldStart [] [] line

/-- One event observed by the split loop for one input row: either a parsed
record together with whether writing it will succeed, or a parse failure.
This makes the external read and write outcomes explicit inputs of the
embedded loop. -/
inductive ReadEvent where
  | ok (record : Record) (writeOk : Bool)
  | parseErr
deriving DecidableEq

/-- An event is clean when it parsed and its write succeeds. -/
def ReadEvent.isClean : ReadEvent → Bool
  | .ok _ true => true
  | _ => false

/-- Record carried by an event (the empty record for a parse failure). -/
def ReadEvent.record : ReadEvent → Record
  | .ok r _ => r
  | .parseErr => []

/-- Turns the rows of an input into the events the split loop sees when every
write succeeds: a row that parses is an ok event, a row that fails to parse
is a parse-error event. -/
def readerEvents (rc : ReaderConfig) (lines : List (List Char)) :
    List ReadEvent :=
  lines.map (fun line =>
    match readLine rc line with
    | .ok fields => ReadEvent.ok fields true
    | .error _ => ReadEvent.parseErr)

/-- Errors surfaced by the split loop body (source lines 155-184): a record
read failure or a record write failure, each carrying the 1-based input line
number placed in the Go error message. -/
inductive SplitError where
  | recordReadError (line : Nat)
  | recordWriteError (line : Nat)
deriving DecidableEq

/-- Result of a completed run: the parts written (each one header followed by
its data records) and the final value of the `totalRecords` counter. -/
structure SplitResult where
  parts : List (List Record)
  totalRecords : Nat
deriving DecidableEq

/-- Embeds the `for` loop of `Split` (source lines 146-184) together with the
error paths.  State: remaining events, `recordCount` (records in the current
part), `totalRecords`, the records already written to the current part (the
header first, mirroring `createNewFile` writing the header on open), and the
finished parts.  A parse failure returns the read error at line
`totalRecords + 2`; after `totalRecords` is incremented, an all-empty record
is skipped when `skipEmpty` is set; otherwise a full current part is rotated
(`createNewFile` opens the next part and writes the header into it) and the
record is written, a write failure returning the write error at line
`totalRecords + 1` for the already-incremented counter.  End of input closes
the current part. -/
def splitRun (cfg : Config) (header : Record) :
    List ReadEvent → Nat → Nat → List Record → List (List Record) →
    Except SplitError SplitResult
  | [], _, totalRecords, current, done =>
      .ok ⟨done ++ [current], totalRecords⟩
  | .parseErr :: _, _, totalRecords, _, _ =>
      .error (.recordReadError (totalRecords + 2))
  | .ok record writeOk :: rest, recordCount, totalRecords, current, done =>
      if cfg.skipEmpty && isEmptyRecord record then
        splitRun cfg header rest recordCount (totalRecords + 1) current done
      else if cfg.maxRecords ≤ recordCount then
        if writeOk then
          splitRun cfg header rest 1 (totalRecords + 1) [header, record]
            (done ++ [current])
        else
          .error (.recordWriteError (totalRecords + 1 + 1))
      else
        if writeOk then
          splitRun cfg header rest (recordCount + 1) (totalRecords + 1)
            (current ++ [record]) done
        else
          .error (.recordWriteError (totalRecords + 1 + 1))

/-- Embeds the same loop on the happy path, where every row parses and every
write succeeds, so only the written parts matter.  The branches mirror
`Split` (source lines 155-184) exactly: skip an all-empty record when
configured, rotate when the current part holds `maxRecords` records, then
append the record to the current part. -/
def splitPure (cfg : Config) (header : Record) :
    List Record → Nat → List Record → List (List Record) →
    List (List Record)
  | [], _, current, done => done ++ [current]
  | record :: rest, recordCount, current, done =>
      if cfg.skipEmpty && isEmptyRecord record then
        splitPure cfg header rest recordCount current done
      else if cfg.maxRecords ≤ recordCount then
        splitPure cfg header rest 1 [header, record] (done ++ [current])
      else
        splitPure cfg header rest (recordCount + 1) (current ++ [record]) done

/-- Embeds `Split` (source lines 128-191) on the happy path, from the header
and the parsed data records: the first part is created with the header before
any data record is processed (source lines 149-153), then the loop runs with
both counters at zero. -/
def Split (cfg : Config) (header : Record) (records : List Record) :
    List (List Record) :=
  splitPure cfg header records 0 [header] []

/-- Embeds the loop of the minimal implementation `splitCSV`
(csvsplit.go lines 77-108): identical to the configurable loop except that
all-empty records are always skipped (the skip is hard-coded) and no
`totalRecords` counter exists. -/
def splitCSVLoop (maxRecords : Nat) (header : Record) :
    List Record → Nat → List Record → List (List Record) →
    List (List Record)
  | [], _, current, done => done ++ [current]
  | record :: rest, recordCount, current, done =>
      if isEmptyRecord record then
        splitCSVLoop maxRecords header rest recordCount current done
      else if maxRecords ≤ recordCount then
        splitCSVLoop maxRecords header rest 1 [header, record]
          (done ++ [current])
      else
        splitCSVLoop maxRecords header rest (recordCount + 1)
          (current ++ [record]) done

/-- Embeds the loop of `splitCSV` (csvsplit.go lines 31-115) on the happy
path, applied to its already-parsed header and records: the first part is
created with the header (`createNewFile` closure, called once before the
loop), then the loop runs with `recordCount = 0`.  The records of an
end-to-end run come from this implementation's own reader, which is the
default strict one, not the configurable lenient one: see `defaultReader`
and `splitCSVFromLines`. -/
def splitCSV (maxRecords : Nat) (header : Record)
    (records : List Record) : List (List Record) :=
  splitCSVLoop maxRecords header records 0 [header] []

/-- Modelled from the spec: Go's `path/filepath.Join`, which is standard
library code outside the source tree, on the argument shapes this program
uses (a directory with no trailing separator and a plain file name): joining
the current directory `"."` with a name yields the name itself, and any
other directory is joined with a single separator. -/
def filepathJoin (dir name : String) : String :=
  if dir = "." then name else dir ++ "/" ++ name

/-- Embeds the output-path computation of `createNewFile` (source lines
243-245): `fmt.Sprintf("%s_%d.csv", prefix, partNumber)` joined under the
configured output directory. -/
def outputFilePath (cfg : Config) (part : Nat) : String :=
  filepathJoin cfg.outputDir (cfg.outName ++ "_" ++ toString part ++ ".csv")

/-- Embeds the output-path computation of the minimal implementation
(csvsplit.go lines 57-58): the same file-name format joined under `"."`. -/
def splitCSVFilePath (outName : String) (part : Nat) : String :=
  filepathJoin "." (outName ++ "_" ++ toString part ++ ".csv")

/-- Modelled from the spec: the reader of the minimal implementation is
`csv.NewReader(file)` with no options set (csvsplit.go line 38), so every Go
reader option keeps its zero value: comma separator, strict quote handling,
and no leading-whitespace trimming — unlike the reader `createReader`
builds for the configurable implementation. -/
def defaultReader : ReaderConfig :=
  { comma := ',', lazyQuotes := false, trimLeadingSpace := false }

/-- Reads every input row in order through one reader, stopping at the
first parse failure (the sequential `reader.Read()` calls both
implementations perform). -/
def readRecords (rc : ReaderConfig) :
    List (List Char) → Except CSVParseError (List Record)
  | [] => .ok []
  | l :: ls =>
    match readLine rc l with
    | .error e => .error e
    | .ok r =>
      match readRecords rc ls with
      | .error e => .error e
      | .ok rs => .ok (r :: rs)

/-- End-to-end configurable run on raw input rows: the header and the data
records are read through the reader `createReader` builds, and the parts are
those `Split` writes.  The value is the output of a run that completes; a
run aborted by a parse failure is the error case (the parts it wrote before
aborting are not modelled here). -/
def SplitFromLines (cfg : Config) (headerLine : List Char)
    (lines : List (List Char)) : Except CSVParseError (List (List Record)) :=
  match readLine (createReader cfg) headerLine with
  | .error e => .error e
  | .ok header =>
    match readRecords (createReader cfg) lines with
    | .error e => .error e
    | .ok rs => .ok (Split cfg header rs)

/-- End-to-end minimal run on raw input rows (csvsplit.go lines 31-115):
the same shape as the configurable run, except that the header and the data
records are read through the default strict, non-trimming reader. -/
def splitCSVFromLines (maxRecords : Nat) (headerLine : List Char)
    (lines : List (List Char)) : Except CSVParseError (List (List Record)) :=
  match readLine defaultReader headerLine with
  | .error e => .error e
  | .ok header =>
    match readRecords defaultReader lines with
    | .error e => .error e
    | .ok rs => .ok (splitCSV maxRecords header rs)

/-- Groups a list into consecutive chunks of `L` elements (the last chunk
may be shorter).  Used to state what the rotation policy produces. -/
def chunks (L : Nat) : List α → List (List α)
  | [] => []
  | x :: xs => (x :: xs.take (L - 1)) :: chunks L (xs.drop (L - 1))
termination_by xs => xs.length
decreasing_by simp [List.length_drop]; omega

/-- Data records of a list of parts: every part with its header line removed,
concatenated in part order. -/
def partsData : List (List Record) → List Record
  | [] => []
  | p :: ps => p.tail ++ partsData ps

/-- The input data records that survive filtering: with skip-empty enabled
the all-empty records are removed, otherwise all records are kept. -/
def effectiveRecords (cfg : Config) (records : List Record) : List Record :=
  if cfg.skipEmpty then records.filter (fun r => !isEmptyRecord r)
  else records

/-! Helper lemmas about the split loop. -/

theorem splitPure_filter_empty (cfg : Config) (header : Record)
    (hskip : cfg.skipEmpty = true) (rs : List Record) :
    ∀ (c : Nat) (cur : List Record) (done : List (List Record)),
      splitPure cfg header rs c cur done =
        splitPure cfg header (rs.filter (fun r => !isEmptyRecord r)) c cur done := by
  induction rs with
  | nil => intro c cur done; rfl
  | cons r rest ih =>
    intro c cur done
    by_cases he : isEmptyRecord r
    · rw [List.filter_cons_of_neg (by simp [he])]
      simp only [splitPure, hskip, he, Bool.and_self, if_true]
      exact ih c cur done
    · have hcond : (cfg.skipEmpty && isEmptyRecord r) = false := by simp [he]
      rw [List.filter_cons_of_pos (by simp [he])]
      simp only [splitPure, hcond, Bool.false_eq_true, if_false]
      by_cases hc : cfg.maxRecords ≤ c
      · simp only [hc, if_true]
        exact ih 1 [header, r] (done ++ [cur])
      · simp only [hc, if_false]
        exact ih (c + 1) (cur ++ [r]) done

theorem splitPure_congr (cfg cfg' : Config) (header : Record)
    (hmax : cfg.maxRecords = cfg'.maxRecords)
    (hskip : cfg.skipEmpty = cfg'.skipEmpty) (rs : List Record) :
    ∀ (c : Nat) (cur : List Record) (done : List (List Record)),
      splitPure cfg header rs c cur done = splitPure cfg' header rs c cur done := by
  induction rs with
  | nil => intro c cur done; rfl
  | cons r rest ih =>
    intro c cur done
    simp only [splitPure, hmax, hskip]
    by_cases he : (cfg'.skipEmpty && isEmptyRecord r) = true
    · simp only [he, if_true]; exact ih c cur done
    · simp only [he, if_false]
      by_cases hc : cfg'.maxRecords ≤ c
      · simp only [hc, if_true]; exact ih 1 [header, r] (done ++ [cur])
      · simp only [hc, if_false]; exact ih (c + 1) (cur ++ [r]) done

theorem splitCSVLoop_eq_splitPure (cfg : Config) (header : Record)
    (hskip : cfg.skipEmpty = true) (rs : List Record) :
    ∀ (c : Nat) (cur : List Record) (done : List (List Record)),
      splitCSVLoop cfg.maxRecords header rs c cur done =
        splitPure cfg header rs c cur done := by
  induction rs with
  | nil => intro c cur done; rfl
  | cons r rest ih =>
    intro c cur done
    simp only [splitCSVLoop, splitPure, hskip, Bool.true_and]
    by_cases he : isEmptyRecord r
    · simp only [he, if_true]; exact ih c cur done
    · simp only [he, if_false]
      by_cases hc : cfg.maxRecords ≤ c
      · simp only [hc, if_true]; exact ih 1 [header, r] (done ++ [cur])
      · simp only [hc, if_false]; exact ih (c + 1) (cur ++ [r]) done

theorem partsData_append (ps qs : List (List Record)) :
    partsData (ps ++ qs) = partsData ps ++ partsData qs := by
  induction ps with
  | nil => rfl
  | cons p ps ih => simp [partsData, ih]

theorem partsData_splitPure (cfg : Config) (header : Record) (rs : List Record) :
    ∀ (c : Nat) (cur : List Record) (done : List (List Record)), cur ≠ [] →
      partsData (splitPure cfg header rs c cur done) =
        partsData done ++ cur.tail ++ effectiveRecords cfg rs := by
  induction rs with
  | nil =>
    intro c cur done _
    simp [splitPure, partsData_append, partsData, effectiveRecords]
  | cons r rest ih =>
    intro c cur done hcur
    by_cases he : (cfg.skipEmpty && isEmptyRecord r) = true
    · have hskip : cfg.skipEmpty = true := by
        rcases Bool.and_eq_true_iff.mp he with ⟨h1, _⟩; exact h1
      have hrec : isEmptyRecord r = true := by
        rcases Bool.and_eq_true_iff.mp he with ⟨_, h2⟩; exact h2
      simp only [splitPure, he, if_true]
      rw [ih c cur done hcur]
      simp [effectiveRecords, hskip, List.filter_cons, hrec]
    · rw [Bool.not_eq_true] at he
      simp only [splitPure, he, Bool.false_eq_true, if_false]
      have heff : effectiveRecords cfg (r :: rest) = r :: effectiveRecords cfg rest := by
        simp only [effectiveRecords]
        by_cases hs : cfg.skipEmpty
        · have hre : isEmptyRecord r = false := by
            cases hr : isEmptyRecord r
            · rfl
            · rw [hs, hr] at he; simp at he
          simp [hs, List.filter_cons, hre]
        · simp [hs]
      by_cases hc : cfg.maxRecords ≤ c
      · simp only [hc, if_true]
        rw [ih 1 [header, r] (done ++ [cur]) (by simp)]
        simp [partsData_append, partsData, heff]
      · simp only [hc, if_false]
        rw [ih (c + 1) (cur ++ [r]) done (by simp)]
        have : (cur ++ [r]).tail = cur.tail ++ [r] := by
          cases cur with
          | nil => exact absurd rfl hcur
          | cons a l => simp
        simp [this, heff]

/-! Lemmas about `chunks`. -/

theorem chunks_eq_nil_iff (L : Nat) (xs : List α) :
    chunks L xs = [] ↔ xs = [] := by
  cases xs with
  | nil => simp [chunks]
  | cons x xs => simp [chunks]

theorem chunks_length (L : Nat) (hL : 0 < L) (xs : List α) :
    (chunks L xs).length = (xs.length + L - 1) / L := by
  induction xs using chunks.induct L with
  | case1 =>
    simp only [chunks, List.length_nil, Nat.zero_add]
    rw [Nat.div_eq_of_lt (by omega)]
  | case2 x xs ih =>
    simp only [chunks, List.length_cons, List.length_drop] at ih ⊢
    rw [ih]
    rcases le_or_lt xs.length (L - 1) with hle | hlt
    · have h1 : xs.length - (L - 1) = 0 := by omega
      have h3 : xs.length + 1 + L - 1 = xs.length + L := by omega
      rw [h1, h3, Nat.add_div_right _ hL]
      rw [Nat.div_eq_of_lt (by omega), Nat.div_eq_of_lt (by omega)]
    · have h1 : xs.length - (L - 1) + L - 1 = xs.length - (L - 1) - 1 + L := by omega
      have h2 : xs.length + 1 + L - 1 = xs.length - (L - 1) - 1 + L + L := by omega
      rw [h1, h2, Nat.add_div_right _ hL, Nat.add_div_right _ hL,
        Nat.add_div_right _ hL]

theorem chunks_mem_length (L : Nat) (hL : 0 < L) (xs : List α) :
    ∀ ch ∈ chunks L xs, 0 < ch.length ∧ ch.length ≤ L := by
  induction xs using chunks.induct L with
  | case1 => simp [chunks]
  | case2 x xs ih =>
    intro ch hch
    simp only [chunks, List.mem_cons] at hch
    rcases hch with rfl | hch
    · constructor
      · simp
      · simp only [List.length_cons, List.length_take]
        omega
    · exact ih ch hch

theorem chunks_dropLast_length (L : Nat) (hL : 0 < L) (xs : List α) :
    ∀ ch ∈ (chunks L xs).dropLast, ch.length = L := by
  induction xs using chunks.induct L with
  | case1 => simp [chunks]
  | case2 x xs ih =>
    intro ch hch
    simp only [chunks] at hch
    rcases hd : chunks L (xs.drop (L - 1)) with _ | ⟨c2, cs2⟩
    · rw [hd] at hch; simp at hch
    · rw [hd] at hch
      rw [List.dropLast_cons_of_ne_nil (by simp)] at hch
      rcases List.mem_cons.mp hch with rfl | hch2
      · have hne : xs.drop (L - 1) ≠ [] := by
          intro h0
          rw [h0] at hd; simp [chunks] at hd
        have hlen : L - 1 < xs.length := by
          by_contra hcon
          exact hne (List.drop_eq_nil_of_le (by omega))
        simp only [List.length_cons, List.length_take]
        omega
      · rw [← hd] at hch2
        exact ih ch hch2

theorem getLast?_cons_of_ne_nil (a : α) (l : List α) (h : l ≠ []) :
    (a :: l).getLast? = l.getLast? := by
  cases l with
  | nil => exact absurd rfl h
  | cons b bs => rfl

theorem chunks_getLast_length (L : Nat) (hL : 0 < L) (xs : List α)
    (hne : xs ≠ []) :
    ∀ ch, (chunks L xs).getLast? = some ch →
      ch.length = if xs.length % L = 0 then L else xs.length % L := by
  induction xs using chunks.induct L with
  | case1 => exact absurd rfl hne
  | case2 x xs ih =>
    intro ch hch
    simp only [chunks] at hch
    rcases hd : chunks L (xs.drop (L - 1)) with _ | ⟨c2, cs2⟩
    · rw [hd, List.getLast?_singleton] at hch
      have hxe : xs.drop (L - 1) = [] := (chunks_eq_nil_iff L _).mp hd
      have hlen : xs.length ≤ L - 1 := by
        by_contra hcon
        have := List.length_drop (L - 1) xs
        rw [hxe] at this
        simp at this
        omega
      have hch' : ch = x :: List.take (L - 1) xs := by
        injection hch with h; exact h.symm
      subst hch'
      simp only [List.length_cons, List.length_take]
      rcases Nat.lt_or_ge (xs.length + 1) L with hlt | hge
      · rw [Nat.mod_eq_of_lt hlt, if_neg (by omega)]
        omega
      · have hxl : xs.length + 1 = L := by omega
        rw [hxl, Nat.mod_self, if_pos rfl]
        omega
    · rw [hd, getLast?_cons_of_ne_nil _ _ (by simp), ← hd] at hch
      have hne2 : xs.drop (L - 1) ≠ [] := by
        intro h0; rw [h0] at hd; simp [chunks] at hd
      have hlen : L - 1 < xs.length := by
        by_contra hcon
        exact hne2 (List.drop_eq_nil_of_le (by omega))
      have := ih hne2 ch hch
      rw [List.length_drop] at this
      have hmod : (xs.length - (L - 1)) % L = (xs.length + 1) % L := by
        have hx : xs.length + 1 = xs.length - (L - 1) + L := by omega
        rw [hx, Nat.add_mod_right]
      rw [hmod] at this
      simpa using this

/-! The rotation policy produces exactly the `chunks` decomposition. -/

theorem splitPure_eq_chunks (cfg : Config) (header : Record)
    (hL : 0 < cfg.maxRecords) (rs : List Record)
    (hns : ∀ r ∈ rs, (cfg.skipEmpty && isEmptyRecord r) = false) :
    ∀ (c : Nat) (cur : List Record) (done : List (List Record)),
      c ≤ cfg.maxRecords →
      splitPure cfg header rs c cur done =
        done ++ (cur ++ rs.take (cfg.maxRecords - c)) ::
          (chunks cfg.maxRecords (rs.drop (cfg.maxRecords - c))).map
            (fun ch => header :: ch) := by
  induction rs with
  | nil =>
    intro c cur done _
    simp [splitPure, chunks]
  | cons r rest ih =>
    intro c cur done hc
    have hr : (cfg.skipEmpty && isEmptyRecord r) = false := hns r (by simp)
    have hrest : ∀ r ∈ rest, (cfg.skipEmpty && isEmptyRecord r) = false :=
      fun r h => hns r (by simp [h])
    simp only [splitPure, hr, Bool.false_eq_true, if_false]
    by_cases hmc : cfg.maxRecords ≤ c
    · have hceq : c = cfg.maxRecords := le_antisymm hc hmc
      simp only [hmc, if_true]
      rw [ih hrest 1 [header, r] (done ++ [cur]) hL]
      have hz : cfg.maxRecords - c = 0 := by omega
      rw [hz]
      simp only [List.take_zero, List.drop_zero, List.append_nil, chunks,
        List.map_cons, List.append_assoc, List.cons_append, List.nil_append]
    · simp only [hmc, if_false]
      rw [ih hrest (c + 1) (cur ++ [r]) done (by omega)]
      obtain ⟨k, hk⟩ : ∃ k, cfg.maxRecords - c = k + 1 :=
        ⟨cfg.maxRecords - c - 1, by omega⟩
      have hk1 : cfg.maxRecords - (c + 1) = k := by omega
      rw [hk, hk1, List.take_succ_cons, List.drop_succ_cons]
      simp

theorem Split_nil (cfg : Config) (header : Record) :
    Split cfg header [] = [[header]] := rfl

theorem Split_eq_chunks (cfg : Config) (header : Record)
    (hL : 0 < cfg.maxRecords) (rs : List Record) (hne : rs ≠ [])
    (hns : ∀ r ∈ rs, (cfg.skipEmpty && isEmptyRecord r) = false) :
    Split cfg header rs =
      (chunks cfg.maxRecords rs).map (fun ch => header :: ch) := by
  rw [Split, splitPure_eq_chunks cfg header hL rs hns 0 [header] []
    (by omega)]
  cases rs with
  | nil => exact absurd rfl hne
  | cons r rest =>
    simp only [Nat.sub_zero, List.nil_append, chunks, List.map_cons]
    obtain ⟨k, hk⟩ : ∃ k, cfg.maxRecords = k + 1 :=
      ⟨cfg.maxRecords - 1, by omega⟩
    rw [hk, List.take_succ_cons, List.drop_succ_cons]
    simp

/-! Lemmas about the error-aware run. -/

theorem splitRun_clean (cfg : Config) (header : Record)
    (events : List ReadEvent) :
    ∀ (c t : Nat) (cur : List Record) (done : List (List Record)),
      (∀ e ∈ events, e.isClean = true) →
      splitRun cfg header events c t cur done =
        .ok ⟨splitPure cfg header (events.map ReadEvent.record) c cur done,
          t + events.length⟩ := by
  induction events with
  | nil => intro c t cur done _; rfl
  | cons e rest ih =>
    intro c t cur done hclean
    have he : e.isClean = true := hclean e (by simp)
    have hrest : ∀ e ∈ rest, e.isClean = true :=
      fun e h => hclean e (by simp [h])
    cases e with
    | parseErr => simp [ReadEvent.isClean] at he
    | ok r w =>
      cases w with
      | false => simp [ReadEvent.isClean] at he
      | true =>
        simp only [splitRun, splitPure, List.map_cons, ReadEvent.record,
          List.length_cons]
        have harith : t + 1 + rest.length = t + (rest.length + 1) := by omega
        by_cases hs : (cfg.skipEmpty && isEmptyRecord r) = true
        · simp only [if_pos hs]
          rw [ih c (t + 1) cur done hrest, harith]
        · simp only [if_neg hs]
          by_cases hmc : cfg.maxRecords ≤ c
          · simp only [if_pos hmc, if_pos trivial]
            rw [ih 1 (t + 1) [header, r] (done ++ [cur]) hrest, harith]
          · simp only [if_neg hmc, if_pos trivial]
            rw [ih (c + 1) (t + 1) (cur ++ [r]) done hrest, harith]

theorem splitRun_append_clean (cfg : Config) (header : Record)
    (es1 : List ReadEvent) :
    ∀ (es2 : List ReadEvent) (c t : Nat) (cur : List Record)
      (done : List (List Record)),
      (∀ e ∈ es1, e.isClean = true) →
      ∃ (c' : Nat) (cur' : List Record) (done' : List (List Record)),
        splitRun cfg header (es1 ++ es2) c t cur done =
          splitRun cfg header es2 c' (t + es1.length) cur' done' := by
  induction es1 with
  | nil =>
    intro es2 c t cur done _
    exact ⟨c, cur, done, by simp⟩
  | cons e rest ih =>
    intro es2 c t cur done hclean
    have he : e.isClean = true := hclean e (by simp)
    have hrest : ∀ e ∈ rest, e.isClean = true :=
      fun e h => hclean e (by simp [h])
    cases e with
    | parseErr => simp [ReadEvent.isClean] at he
    | ok r w =>
      cases w with
      | false => simp [ReadEvent.isClean] at he
      | true =>
        simp only [List.cons_append, splitRun, List.length_cons,
          List.append_eq]
        have harith : t + 1 + rest.length = t + (rest.length + 1) := by omega
        by_cases hs : (cfg.skipEmpty && isEmptyRecord r) = true
        · simp only [if_pos hs]
          obtain ⟨c', cur', done', hres⟩ :=
            ih es2 c (t + 1) cur done hrest
          exact ⟨c', cur', done', by rw [hres, harith]⟩
        · simp only [if_neg hs]
          by_cases hmc : cfg.maxRecords ≤ c
          · simp only [if_pos hmc, if_pos trivial]
            obtain ⟨c', cur', done', hres⟩ :=
              ih es2 1 (t + 1) [header, r] (done ++ [cur]) hrest
            exact ⟨c', cur', done', by rw [hres, harith]⟩
          · simp only [if_neg hmc, if_pos trivial]
            obtain ⟨c', cur', done', hres⟩ :=
              ih es2 (c + 1) (t + 1) (cur ++ [r]) done hrest
            exact ⟨c', cur', done', by rw [hres, harith]⟩

/-! With lazy quotes enabled the row parser never fails. -/

theorem scan_lazy_ok (comma : Char) (trim : Bool) :
    ∀ (mode : ScanMode) (acc : List Char) (fields : List (List Char))
      (rest : List Char),
      ∃ out, scan comma true trim mode acc fields rest = .ok out
  | .fieldStart, acc, fields, [] =>
      ⟨(fields ++ [acc]).map (fun f => String.mk f), by simp [scan]⟩
  | .fieldStart, acc, fields, c :: cs => by
      simp only [scan]
      by_cases h1 : (trim && c.isWhitespace) = true
      · rw [if_pos h1]
        exact scan_lazy_ok comma trim .fieldStart acc fields cs
      · rw [if_neg h1]
        by_cases h2 : c = comma
        · rw [if_pos h2]
          exact scan_lazy_ok comma trim .fieldStart [] (fields ++ [acc]) cs
        · rw [if_neg h2]
          by_cases h3 : c = '"'
          · rw [if_pos h3]
            exact scan_lazy_ok comma trim .inQuoted acc fields cs
          · rw [if_neg h3]
            exact scan_lazy_ok comma trim .inBare (acc ++ [c]) fields cs
  | .inBare, acc, fields, [] =>
      ⟨(fields ++ [acc]).map (fun f => String.mk f), by simp [scan]⟩
  | .inBare, acc, fields, c :: cs => by
      simp only [scan]
      by_cases h1 : c = comma
      · rw [if_pos h1]
        exact scan_lazy_ok comma trim .fieldStart [] (fields ++ [acc]) cs
      · rw [if_neg h1, if_neg (by simp)]
        exact scan_lazy_ok comma trim .inBare (acc ++ [c]) fields cs
  | .inQuoted, acc, fields, [] =>
      ⟨(fields ++ [acc]).map (fun f => String.mk f), by simp [scan]⟩
  | .inQuoted, acc, fields, c :: cs => by
      unfold scan
      by_cases h1 : c = '"'
      · rw [if_pos h1]
        cases cs with
        | nil => exact ⟨(fields ++ [acc]).map (fun f => String.mk f), rfl⟩
        | cons c2 cs2 =>
          simp only []
          by_cases h2 : c2 = '"'
          · rw [if_pos h2]
            exact scan_lazy_ok comma trim .inQuoted (acc ++ ['"']) fields cs2
          · rw [if_neg h2]
            by_cases h3 : c2 = comma
            · rw [if_pos h3]
              exact scan_lazy_ok comma trim .fieldStart []
                (fields ++ [acc]) cs2
            · rw [if_neg h3, if_pos trivial]
              exact scan_lazy_ok comma trim .inQuoted (acc ++ ['"']) fields
                (c2 :: cs2)
      · rw [if_neg h1]
        exact scan_lazy_ok comma trim .inQuoted (acc ++ [c]) fields cs
termination_by _mo _ac _fi rest => rest.length
decreasing_by all_goals simp only [List.length_cons]; omega

theorem readLine_createReader_ok (cfg : Config) (line : List Char) :
    ∃ fields, readLine (createReader cfg) line = .ok fields := by
  rw [readLine, createReader]
  exact scan_lazy_ok cfg.delimiter true .fieldStart [] [] line

theorem readerEvents_clean (cfg : Config) (lines : List (List Char)) :
    ∀ e ∈ readerEvents (createReader cfg) lines, e.isClean = true := by
  intro e he
  rw [readerEvents] at he
  obtain ⟨line, _, hline⟩ := List.mem_map.mp he
  obtain ⟨fields, hok⟩ := readLine_createReader_ok cfg line
  rw [hok] at hline
  rw [← hline]
  rfl

theorem map_dropLast_eq (f : α → β) (l : List α) :
    (l.map f).dropLast = l.dropLast.map f := by
  induction l with
  | nil => rfl
  | cons a l ih =>
    cases l with
    | nil => rfl
    | cons b bs => simp [List.dropLast_cons_of_ne_nil, ih]

/-! Claim theorems. -/

/-- C1: for every input with R data records and configured limit L > 0, with
skip-empty disabled, `Split` produces exactly max(1, ceil(R / L)) output
parts; every part except the last contains exactly L data records; the last
part contains R mod L data records (or L when R mod L = 0 and R > 0); and
the first record of every part equals the header. -/
theorem Split_part_count_and_sizes (cfg : Config) (header : Record)
    (records : List Record) (hL : 0 < cfg.maxRecords)
    (hskip : cfg.skipEmpty = false) :
    (Split cfg header records).length =
      max 1 ((records.length + cfg.maxRecords - 1) / cfg.maxRecords) ∧
    (∀ p ∈ (Split cfg header records).dropLast,
      p.tail.length = cfg.maxRecords) ∧
    (∀ p, (Split cfg header records).getLast? = some p →
      p.tail.length =
        if records.length % cfg.maxRecords = 0 ∧ 0 < records.length
        then cfg.maxRecords
        else records.length % cfg.maxRecords) ∧
    (∀ p ∈ Split cfg header records, p.head? = some header) := by
  have hns : ∀ r ∈ records, (cfg.skipEmpty && isEmptyRecord r) = false := by
    intro r _; simp [hskip]
  by_cases hne : records = []
  · subst hne
    rw [Split_nil]
    refine ⟨?_, ?_, ?_, ?_⟩
    · simp only [List.length_singleton, List.length_nil, Nat.zero_add]
      rw [Nat.div_eq_of_lt (by omega)]
      omega
    · intro p hp
      simp only [List.dropLast_single, List.not_mem_nil] at hp
    · intro p hp
      simp only [List.getLast?_singleton, Option.some.injEq] at hp
      subst hp
      simp
    · intro p hp
      simp only [List.mem_singleton] at hp
      subst hp
      rfl
  · have hR : 0 < records.length := List.length_pos.mpr hne
    rw [Split_eq_chunks cfg header hL records hne hns]
    refine ⟨?_, ?_, ?_, ?_⟩
    · rw [List.length_map, chunks_length cfg.maxRecords hL records]
      have h1 : 1 ≤ (records.length + cfg.maxRecords - 1) / cfg.maxRecords := by
        rw [Nat.one_le_div_iff hL]; omega
      omega
    · intro p hp
      rw [map_dropLast_eq] at hp
      obtain ⟨ch, hch, rfl⟩ := List.mem_map.mp hp
      simpa using chunks_dropLast_length cfg.maxRecords hL records ch hch
    · intro p hp
      rw [List.getLast?_map] at hp
      rcases hch : (chunks cfg.maxRecords records).getLast? with _ | ch
      · rw [hch] at hp; simp at hp
      · rw [hch] at hp
        simp only [Option.map_some', Option.some.injEq] at hp
        subst hp
        have := chunks_getLast_length cfg.maxRecords hL records hne ch hch
        simp only [List.tail_cons]
        rw [this]
        by_cases hmod : records.length % cfg.maxRecords = 0
        · rw [if_pos hmod, if_pos ⟨hmod, hR⟩]
        · rw [if_neg hmod, if_neg (by tauto)]
    · intro p hp
      obtain ⟨ch, _, rfl⟩ := List.mem_map.mp hp
      rfl

/-- Witness for C1 at a concrete input: limit 2, three records. -/
theorem Split_part_count_and_sizes_witness :
    (0 : Nat) < 2 ∧
    ((Split ⟨"in.csv", "out", ".", 2, 65536, false, ',', false⟩
        ["name", "age"] [["Alice", "30"], ["Bob", "25"], ["Carol", "40"]]).length =
      max 1 ((3 + 2 - 1) / 2) ∧
    (∀ p ∈ (Split ⟨"in.csv", "out", ".", 2, 65536, false, ',', false⟩
        ["name", "age"]
        [["Alice", "30"], ["Bob", "25"], ["Carol", "40"]]).dropLast,
      p.tail.length = 2) ∧
    (∀ p, (Split ⟨"in.csv", "out", ".", 2, 65536, false, ',', false⟩
        ["name", "age"]
        [["Alice", "30"], ["Bob", "25"], ["Carol", "40"]]).getLast? = some p →
      p.tail.length = if 3 % 2 = 0 ∧ 0 < 3 then 2 else 3 % 2) ∧
    (∀ p ∈ Split ⟨"in.csv", "out", ".", 2, 65536, false, ',', false⟩
        ["name", "age"] [["Alice", "30"], ["Bob", "25"], ["Carol", "40"]],
      p.head? = some ["name", "age"])) :=
  ⟨by decide,
   Split_part_count_and_sizes ⟨"in.csv", "out", ".", 2, 65536, false, ',', false⟩
     ["name", "age"] [["Alice", "30"], ["Bob", "25"], ["Carol", "40"]]
     (by decide) rfl⟩

theorem mem_partsData (parts : List (List Record)) (p : List Record)
    (r : Record) (hp : p ∈ parts) (hr : r ∈ p.tail) :
    r ∈ partsData parts := by
  induction parts with
  | nil => simp at hp
  | cons q qs ih =>
    rcases List.mem_cons.mp hp with rfl | hp2
    · simp [partsData, hr]
    · simp [partsData, ih hp2]

theorem Split_eq_Split_effective (cfg : Config) (header : Record)
    (records : List Record) :
    Split cfg header records =
      Split cfg header (effectiveRecords cfg records) := by
  rw [effectiveRecords]
  by_cases hs : cfg.skipEmpty = true
  · rw [if_pos hs, Split, Split,
      splitPure_filter_empty cfg header hs records 0 [header] []]
  · rw [if_neg hs]

/-- C2 counterexample: with skip-empty enabled (the source default) an
all-empty input record is dropped, so concatenating the data records of the
parts does not reproduce the input's data records. -/
theorem Split_roundtrip_counterexample :
    partsData (Split ⟨"in.csv", "out", ".", 2, 65536, true, ',', false⟩
      ["h"] [[""]]) = [] ∧ ([[""]] : List Record) ≠ [] := by
  constructor
  · rfl
  · simp

/-- C2 (amended): concatenating the data records of all parts in part order
yields the input's data records in original order with identical field
values, with the all-empty records removed when skip-empty is enabled (and
verbatim when skip-empty is disabled). -/
theorem Split_roundtrip (cfg : Config) (header : Record)
    (records : List Record) :
    partsData (Split cfg header records) = effectiveRecords cfg records := by
  rw [Split, partsData_splitPure cfg header records 0 [header] [] (by simp)]
  simp [partsData]

/-- C3 counterexample: an input with one data record whose only field is
empty, under skip-empty, produces one part with zero data records although
the input has one data record. -/
theorem Split_zero_data_part_counterexample :
    Split ⟨"in.csv", "out", ".", 10000, 65536, true, ',', false⟩
      ["h"] [[""]] = [[["h"]]] ∧
    ([[""]] : List Record).length = 1 := by
  constructor
  · rfl
  · rfl

/-- C3 (amended): every output part is one header record followed by at most
max-records data records; a part with zero data records is emitted only when
no data records survive skip-empty filtering (with skip-empty disabled: only
when the input has zero data records); and the first part is always created
and written with the header, a header-only input producing exactly one part
holding only the header. -/
theorem Split_part_invariant (cfg : Config) (header : Record)
    (records : List Record) (hL : 0 < cfg.maxRecords) :
    (∀ p ∈ Split cfg header records,
      p.head? = some header ∧ p.tail.length ≤ cfg.maxRecords) ∧
    (∀ p ∈ Split cfg header records, p.tail = [] →
      effectiveRecords cfg records = []) ∧
    0 < (Split cfg header records).length ∧
    Split cfg header [] = [[header]] := by
  have heq := Split_eq_Split_effective cfg header records
  have hns : ∀ r ∈ effectiveRecords cfg records,
      (cfg.skipEmpty && isEmptyRecord r) = false := by
    intro r hr
    rw [effectiveRecords] at hr
    by_cases hs : cfg.skipEmpty = true
    · rw [if_pos hs] at hr
      have := List.of_mem_filter hr
      simp only [Bool.not_eq_true'] at this
      simp [this]
    · have : cfg.skipEmpty = false := by
        cases h : cfg.skipEmpty
        · rfl
        · exact absurd h hs
      simp [this]
  by_cases heff : effectiveRecords cfg records = []
  · rw [heq, heff, Split_nil]
    refine ⟨?_, ?_, ?_, ?_⟩
    · intro p hp
      simp only [List.mem_singleton] at hp
      subst hp
      exact ⟨rfl, by simp⟩
    · intro p _ _
      rfl
    · simp
    · rfl
  · rw [heq, Split_eq_chunks cfg header hL _ heff hns]
    refine ⟨?_, ?_, ?_, ?_⟩
    · intro p hp
      obtain ⟨ch, hch, rfl⟩ := List.mem_map.mp hp
      have := chunks_mem_length cfg.maxRecords hL _ ch hch
      exact ⟨rfl, by simpa using this.2⟩
    · intro p hp htail
      obtain ⟨ch, hch, rfl⟩ := List.mem_map.mp hp
      have := chunks_mem_length cfg.maxRecords hL _ ch hch
      simp only [List.tail_cons] at htail
      subst htail
      simp at this
    · rw [List.length_map]
      have : chunks cfg.maxRecords (effectiveRecords cfg records) ≠ [] := by
        intro h0
        exact heff ((chunks_eq_nil_iff cfg.maxRecords _).mp h0)
      exact List.length_pos.mpr this
    · rfl

/-- Witness for C3 at a concrete input: limit 2 with skip-empty enabled. -/
theorem Split_part_invariant_witness :
    (0 : Nat) < 2 ∧
    ((∀ p ∈ Split ⟨"in.csv", "out", ".", 2, 65536, true, ',', false⟩
        ["h"] [["a"], [""], ["b"], ["c"]],
      p.head? = some ["h"] ∧ p.tail.length ≤ 2) ∧
    (∀ p ∈ Split ⟨"in.csv", "out", ".", 2, 65536, true, ',', false⟩
        ["h"] [["a"], [""], ["b"], ["c"]], p.tail = [] →
      effectiveRecords ⟨"in.csv", "out", ".", 2, 65536, true, ',', false⟩
        [["a"], [""], ["b"], ["c"]] = []) ∧
    0 < (Split ⟨"in.csv", "out", ".", 2, 65536, true, ',', false⟩
        ["h"] [["a"], [""], ["b"], ["c"]]).length ∧
    Split ⟨"in.csv", "out", ".", 2, 65536, true, ',', false⟩ ["h"] []
      = [[["h"]]]) :=
  ⟨by decide,
   Split_part_invariant ⟨"in.csv", "out", ".", 2, 65536, true, ',', false⟩
     ["h"] [["a"], [""], ["b"], ["c"]] (by decide)⟩

/-- C4: with skip-empty enabled, an all-empty record is discarded: the
output equals the output on the input with all-empty records removed (so a
skipped record consumes no slot in the current part and triggers no rotation
or part creation), and no all-empty record occurs among the data records of
any part. -/
theorem Split_skip_empty (cfg : Config) (header : Record)
    (records : List Record) (hskip : cfg.skipEmpty = true) :
    Split cfg header records =
      Split cfg header (records.filter (fun r => !isEmptyRecord r)) ∧
    (∀ r, isEmptyRecord r = true →
      ∀ p ∈ Split cfg header records, r ∉ p.tail) := by
  constructor
  · rw [Split, Split, splitPure_filter_empty cfg header hskip records 0
      [header] []]
  · intro r hr p hp hmem
    have hdata : r ∈ partsData (Split cfg header records) :=
      mem_partsData _ p r hp hmem
    rw [Split, partsData_splitPure cfg header records 0 [header] []
      (by simp)] at hdata
    simp only [partsData, effectiveRecords, if_pos hskip, List.tail_cons,
      List.nil_append, List.append_nil] at hdata
    have := List.of_mem_filter hdata
    rw [hr] at this
    simp at this

/-- Witness for C4 at a concrete input containing an all-empty record. -/
theorem Split_skip_empty_witness :
    (Split ⟨"in.csv", "out", ".", 2, 65536, true, ',', false⟩
        ["h"] [["a"], [""], ["b"]] =
      Split ⟨"in.csv", "out", ".", 2, 65536, true, ',', false⟩
        ["h"] ([["a"], [""], ["b"]].filter (fun r => !isEmptyRecord r))) ∧
    (∀ r, isEmptyRecord r = true →
      ∀ p ∈ Split ⟨"in.csv", "out", ".", 2, 65536, true, ',', false⟩
        ["h"] [["a"], [""], ["b"]], r ∉ p.tail) :=
  Split_skip_empty ⟨"in.csv", "out", ".", 2, 65536, true, ',', false⟩
    ["h"] [["a"], [""], ["b"]] rfl

/-- C5: a mid-stream parse failure after N successfully handled records
fails with a record-read error at line N + 2 (the header is line 1, so the
failing (N+1)-st data record is reported at its physical input line); a
write failure on a record that reaches the writer fails with a record-write
error at the already-incremented total count plus one, which is likewise
that record's physical line N + 2. -/
theorem splitRun_error_lines (cfg : Config) (header : Record)
    (okEvents rest : List ReadEvent) (r : Record)
    (hclean : ∀ e ∈ okEvents, e.isClean = true)
    (hw : ¬(cfg.skipEmpty && isEmptyRecord r) = true) :
    splitRun cfg header (okEvents ++ ReadEvent.parseErr :: rest) 0 0
        [header] [] =
      .error (.recordReadError (okEvents.length + 2)) ∧
    splitRun cfg header (okEvents ++ ReadEvent.ok r false :: rest) 0 0
        [header] [] =
      .error (.recordWriteError (okEvents.length + 2)) := by
  constructor
  · obtain ⟨c', cur', done', hstep⟩ :=
      splitRun_append_clean cfg header okEvents (ReadEvent.parseErr :: rest)
        0 0 [header] [] hclean
    rw [hstep]
    simp only [splitRun]
    have : 0 + okEvents.length + 2 = okEvents.length + 2 := by omega
    rw [this]
  · obtain ⟨c', cur', done', hstep⟩ :=
      splitRun_append_clean cfg header okEvents
        (ReadEvent.ok r false :: rest) 0 0 [header] [] hclean
    rw [hstep]
    simp only [splitRun, if_neg hw]
    have harith : 0 + okEvents.length + 1 + 1 = okEvents.length + 2 := by
      omega
    by_cases hmc : cfg.maxRecords ≤ c'
    · rw [if_pos hmc, if_neg (by simp), harith]
    · rw [if_neg hmc, if_neg (by simp), harith]

/-- Witness for C5: one clean record, then a parse failure reported at line
3, and separately a write failure on the second record reported at line 3. -/
theorem splitRun_error_lines_witness :
    (∀ e ∈ [ReadEvent.ok ["a"] true], e.isClean = true) ∧
    ¬((⟨"in.csv", "out", ".", 2, 65536, true, ',', false⟩ :
        Config).skipEmpty && isEmptyRecord ["b"]) = true ∧
    (splitRun ⟨"in.csv", "out", ".", 2, 65536, true, ',', false⟩ ["h"]
        ([ReadEvent.ok ["a"] true] ++ ReadEvent.parseErr :: []) 0 0
        [["h"]] [] =
      .error (.recordReadError (1 + 2)) ∧
    splitRun ⟨"in.csv", "out", ".", 2, 65536, true, ',', false⟩ ["h"]
        ([ReadEvent.ok ["a"] true] ++ ReadEvent.ok ["b"] false :: []) 0 0
        [["h"]] [] =
      .error (.recordWriteError (1 + 2))) :=
  ⟨by decide, by decide,
   splitRun_error_lines ⟨"in.csv", "out", ".", 2, 65536, true, ',', false⟩
     ["h"] [ReadEvent.ok ["a"] true] [] ["b"] (by decide) (by decide)⟩

/-- C10: the total-record counter counts every successfully parsed record,
including all-empty records that skip-empty later discards: a clean run over
N events ends with the counter equal to N no matter how many records were
skipped, so reported line numbers always track physical input position. -/
theorem splitRun_total_counts_all (cfg : Config) (header : Record)
    (events : List ReadEvent)
    (hclean : ∀ e ∈ events, e.isClean = true) :
    splitRun cfg header events 0 0 [header] [] =
      .ok ⟨splitPure cfg header (events.map ReadEvent.record) 0 [header] [],
        events.length⟩ := by
  rw [splitRun_clean cfg header events 0 0 [header] [] hclean]
  simp

/-- Witness for C10: two records, the first all-empty and skipped, yet the
final counter is 2. -/
theorem splitRun_total_counts_all_witness :
    (∀ e ∈ [ReadEvent.ok [""] true, ReadEvent.ok ["b"] true],
      e.isClean = true) ∧
    splitRun ⟨"in.csv", "out", ".", 2, 65536, true, ',', false⟩ ["h"]
        [ReadEvent.ok [""] true, ReadEvent.ok ["b"] true] 0 0 [["h"]] [] =
      .ok ⟨splitPure ⟨"in.csv", "out", ".", 2, 65536, true, ',', false⟩
          ["h"] ([ReadEvent.ok [""] true,
            ReadEvent.ok ["b"] true].map ReadEvent.record) 0 [["h"]] [],
        [ReadEvent.ok [""] true, ReadEvent.ok ["b"] true].length⟩ :=
  ⟨by decide,
   splitRun_total_counts_all
     ⟨"in.csv", "out", ".", 2, 65536, true, ',', false⟩ ["h"]
     [ReadEvent.ok [""] true, ReadEvent.ok ["b"] true] (by decide)⟩

theorem splitRun_congr (cfg cfg' : Config) (header : Record)
    (hmax : cfg.maxRecords = cfg'.maxRecords)
    (hskip : cfg.skipEmpty = cfg'.skipEmpty) (events : List ReadEvent) :
    ∀ (c t : Nat) (cur : List Record) (done : List (List Record)),
      splitRun cfg header events c t cur done =
        splitRun cfg' header events c t cur done := by
  induction events with
  | nil => intro c t cur done; rfl
  | cons e rest ih =>
    intro c t cur done
    cases e with
    | parseErr => rfl
    | ok r w =>
      simp only [splitRun, hmax, hskip]
      by_cases hs : (cfg'.skipEmpty && isEmptyRecord r) = true
      · rw [if_pos hs, if_pos hs, ih]
      · rw [if_neg hs, if_neg hs]
        by_cases hmc : cfg'.maxRecords ≤ c
        · rw [if_pos hmc, if_pos hmc]
          cases w with
          | false => rfl
          | true => simp only [if_pos trivial]; rw [ih]
        · rw [if_neg hmc, if_neg hmc]
          cases w with
          | false => rfl
          | true => simp only [if_pos trivial]; rw [ih]

/-- C8: two runs that differ only in the verbose flag behave identically:
the same parts, the same error outcome, and the same output file paths —
verbose only gates progress printing. -/
theorem splitRun_verbose_independent (cfg : Config) (v : Bool)
    (header : Record) (events : List ReadEvent) :
    splitRun { cfg with verbose := v } header events 0 0 [header] [] =
      splitRun cfg header events 0 0 [header] [] ∧
    ∀ i, outputFilePath { cfg with verbose := v } i =
      outputFilePath cfg i := by
  constructor
  · exact splitRun_congr { cfg with verbose := v } cfg header rfl rfl events
      0 0 [header] []
  · intro i
    rfl

theorem readRecords_congr (rc rc' : ReaderConfig)
    (lines : List (List Char))
    (h : ∀ l ∈ lines, readLine rc l = readLine rc' l) :
    readRecords rc lines = readRecords rc' lines := by
  induction lines with
  | nil => rfl
  | cons l ls ih =>
    simp only [readRecords]
    rw [h l (by simp), ih (fun l2 hl2 => h l2 (by simp [hl2]))]

/-- C9 counterexample: the two implementations read through different
readers.  On the row `a, b` the minimal run keeps the leading space that the
configurable run trims away, and on the malformed row `Carol,"40` the
minimal run aborts with a parse error while the configurable run completes:
at the degenerate configuration the output files differ. -/
theorem splitCSV_not_refines_counterexample :
    splitCSVFromLines 2 "h".toList ["a, b".toList] =
      .ok [[["h"], ["a", " b"]]] ∧
    SplitFromLines ⟨"in.csv", "out", ".", 2, 65536, true, ',', false⟩
        "h".toList ["a, b".toList] =
      .ok [[["h"], ["a", "b"]]] ∧
    (["a", " b"] : Record) ≠ ["a", "b"] ∧
    splitCSVFromLines 2 "h".toList ["Carol,\"40".toList] =
      .error CSVParseError.quote ∧
    SplitFromLines ⟨"in.csv", "out", ".", 2, 65536, true, ',', false⟩
        "h".toList ["Carol,\"40".toList] =
      .ok [[["h"], ["Carol", "40"]]] := by
  refine ⟨?_, ?_, by decide, ?_, ?_⟩ <;>
    simp [splitCSVFromLines, SplitFromLines, readRecords, readLine,
      defaultReader, createReader, scan, Split, splitPure, splitCSV,
      splitCSVLoop, isEmptyRecord]

/-- C9 (amended): on every input whose rows the default strict reader of
the minimal implementation and the lenient trimming reader of the
configurable one parse identically, the minimal `splitCSV` run produces
exactly the output files of the configurable `Split` run at the degenerate
configuration (skip-empty enabled, comma delimiter, current-directory
output): the two split loops realise the same design. -/
theorem splitCSV_refines_Split_same_parse (cfg : Config)
    (headerLine : List Char) (lines : List (List Char))
    (hskip : cfg.skipEmpty = true) (_hdelim : cfg.delimiter = ',')
    (hdir : cfg.outputDir = ".")
    (hheader : readLine defaultReader headerLine =
      readLine (createReader cfg) headerLine)
    (hlines : ∀ l ∈ lines, readLine defaultReader l =
      readLine (createReader cfg) l) :
    splitCSVFromLines cfg.maxRecords headerLine lines =
      SplitFromLines cfg headerLine lines ∧
    ∀ i, splitCSVFilePath cfg.outName i = outputFilePath cfg i := by
  constructor
  · rw [splitCSVFromLines, SplitFromLines, hheader,
      readRecords_congr defaultReader (createReader cfg) lines hlines]
    cases readLine (createReader cfg) headerLine with
    | error e => rfl
    | ok header =>
      cases readRecords (createReader cfg) lines with
      | error e => rfl
      | ok rs =>
        simp only [splitCSV, Split,
          splitCSVLoop_eq_splitPure cfg header hskip rs 0 [header] []]
  · intro i
    rw [splitCSVFilePath, outputFilePath, hdir]

/-- Witness for C9 at a concrete input whose rows both readers parse
identically. -/
theorem splitCSV_refines_Split_same_parse_witness :
    splitCSVFromLines 2 "h".toList
        ["a,b".toList, "c,d".toList, "e,f".toList] =
      SplitFromLines ⟨"in.csv", "out", ".", 2, 65536, true, ',', false⟩
        "h".toList ["a,b".toList, "c,d".toList, "e,f".toList] ∧
    ∀ i, splitCSVFilePath "out" i =
      outputFilePath ⟨"in.csv", "out", ".", 2, 65536, true, ',', false⟩ i :=
  splitCSV_refines_Split_same_parse
    ⟨"in.csv", "out", ".", 2, 65536, true, ',', false⟩
    "h".toList ["a,b".toList, "c,d".toList, "e,f".toList]
    rfl rfl rfl
    (by simp [readLine, scan, defaultReader, createReader])
    (by intro l hl
        fin_cases hl <;>
          simp [readLine, scan, defaultReader, createReader])

/-- C7 counterexample: the delimiter check is a byte-length check, not a
character count: the one-character delimiter "é" (two UTF-8 bytes) silently
falls back to the comma instead of being used. -/
theorem parseDelimiter_counterexample :
    "é".length = 1 ∧ parseDelimiter "é" = ',' ∧ parseDelimiter "é" ≠ 'é' := by
  refine ⟨by decide, by decide, by decide⟩

/-- C7 (amended): a delimiter value of exactly one byte (hence one ASCII
character) is used as the field separator for both the reader and the
writer; any other value — a multi-byte single character included — silently
falls back to the comma for both. -/
theorem delimiter_threading (s : String) (cfg : Config) :
    (createReader { cfg with delimiter := parseDelimiter s }).comma =
      parseDelimiter s ∧
    writerComma { cfg with delimiter := parseDelimiter s } =
      parseDelimiter s ∧
    parseDelimiter s = (if s.utf8ByteSize = 1 then s.get 0 else ',') :=
  ⟨rfl, rfl, rfl⟩

/-- C6: the reader the source constructs enables lazy quotes, so every row —
including one with an unbalanced quote — yields a best-effort parse, a run
over rows read through this reader never fails (in particular no
record-read error is reported), and on the concrete malformed row
`Carol,"40` the strict parser fails where the source's lenient one returns
the best-effort fields. -/
theorem lenient_quotes_never_abort (cfg : Config) (header : Record) :
    (∀ line : List Char, ∃ fields,
      readLine (createReader cfg) line = .ok fields) ∧
    (∀ lines : List (List Char), ∃ res,
      splitRun cfg header (readerEvents (createReader cfg) lines) 0 0
        [header] [] = .ok res) ∧
    readLine ⟨',', false, true⟩ "Carol,\"40".toList =
      .error CSVParseError.quote ∧
    readLine ⟨',', true, true⟩ "Carol,\"40".toList =
      .ok ["Carol", "40"] := by
  refine ⟨readLine_createReader_ok cfg, ?_, ?_, ?_⟩
  · intro lines
    exact ⟨_, splitRun_clean cfg header _ 0 0 [header] []
      (readerEvents_clean cfg lines)⟩
  · simp [readLine, scan]
  · simp [readLine, scan]
